import Mathlib

/-!
Verification of the edit-extraction / classification / application pipeline of
`aider/coders/markdown_editor_coder.py` (class `MarkdownEditorCoder`).

The source is shallowly embedded: Python strings are Lean `String`s, Python
string methods are modelled explicitly over their character lists, the two sets
`editable_files` / `context_files` are `Finset String`, the filesystem is a
total map `String → Option String`, and the external collaborators
(`find_original_update_blocks`, `do_replace`, `abs_root_path`, the IO sink) are
taken as explicit function parameters, since their code is outside this slice.
Python line handling is modelled with `'\n'` as the line terminator (the
terminator relevant to all inputs considered here).
-/

set_option maxHeartbeats 1000000
set_option maxRecDepth 10000

namespace MarkdownEditor

/-- ASCII whitespace characters recognised by Python `str.strip()` / `str.split()`. -/
def wsChars : List Char := [' ', '\t', '\n', '\r', '\x0b', '\x0c']

def isWsChar (c : Char) : Bool := wsChars.contains c

/-- Python `s.lstrip(chars)`: drop leading characters belonging to `chars`. -/
def pyLstrip (s : String) (chars : List Char) : String :=
  String.mk (s.data.dropWhile (fun c => chars.contains c))

/-- Python `s.rstrip(chars)`: drop trailing characters belonging to `chars`. -/
def pyRstrip (s : String) (chars : List Char) : String :=
  String.mk ((s.data.reverse.dropWhile (fun c => chars.contains c)).reverse)

/-- Python `s.strip(chars)`. -/
def pyStrip (s : String) (chars : List Char) : String :=
  pyRstrip (pyLstrip s chars) chars

/-- Python `s.strip()` (whitespace strip). -/
def pyStripWs (s : String) : String := pyStrip s wsChars

/-- Prefix test on character lists: `isPre pat s` is true when `pat` is a
prefix of `s`. -/
def isPre : List Char → List Char → Bool
  | [], _ => true
  | _ :: _, [] => false
  | a :: as, b :: bs => a == b && isPre as bs

/-- Python `s.startswith(pat)`. -/
def startsWithStr (s pat : String) : Bool := isPre pat.data s.data

/-- Infix test on character lists: true when `pat` occurs contiguously in the
second argument. -/
def subInfix (pat : List Char) : List Char → Bool
  | [] => pat.isEmpty
  | c :: rest => isPre pat (c :: rest) || subInfix pat rest

/-- Python `sub in s` (substring containment). -/
def strContains (s sub : String) : Bool := subInfix sub.data s.data

/-- Worker for `splitLinesKeep`; `acc` holds the current (reversed) partial line. -/
def splitLinesAux : List Char → List Char → List String
  | acc, [] => if acc.isEmpty then [] else [String.mk acc.reverse]
  | acc, c :: cs =>
    if c == '\n' then String.mk (acc.reverse ++ ['\n']) :: splitLinesAux [] cs
    else splitLinesAux (c :: acc) cs

/-- Python `s.splitlines(keepends=True)` with `'\n'` terminators. -/
def splitLinesKeep (s : String) : List String := splitLinesAux [] s.data

/-- Concatenation of the character data of a list of strings. -/
def joinChars : List String → List Char
  | [] => []
  | s :: rest => s.data ++ joinChars rest

/-- Python `"".join(lines)`. -/
def joinStr (ls : List String) : String := String.mk (joinChars ls)

/-- Worker for `pySplitWs`. -/
def splitWsAux : List Char → List Char → List String
  | acc, [] => if acc.isEmpty then [] else [String.mk acc.reverse]
  | acc, c :: cs =>
    if isWsChar c then
      if acc.isEmpty then splitWsAux [] cs
      else String.mk acc.reverse :: splitWsAux [] cs
    else splitWsAux (c :: acc) cs

/-- Python `s.split()`: split on whitespace runs, dropping empty fields. -/
def pySplitWs (s : String) : List String := splitWsAux [] s.data

/-- Worker splitting a character list on `'/'`. -/
def splitSlashAux : List Char → List Char → List (List Char)
  | acc, [] => [acc.reverse]
  | acc, c :: cs =>
    if c == '/' then acc.reverse :: splitSlashAux [] cs
    else splitSlashAux (c :: acc) cs

/-- Python `pathlib.Path(s).name` for ordinary POSIX-style relative paths: the
last nonempty `/`-separated component. -/
def pathName (s : String) : String :=
  String.mk (((splitSlashAux [] s.data).filter (fun p => !p.isEmpty)).getLastD [])

/-- An edit extracted from the model response.  The source represents these as
raw tuples and dispatches on tuple length: 3-tuples `(path, original, updated)`
are search/replace edits, 2-tuples `(path, content)` are whole-file edits. -/
inductive Edit
  | sr (path original updated : String)
  | whole (path content : String)
deriving DecidableEq, Repr

/-- The first tuple component of an edit (its model-supplied path string). -/
def Edit.path : Edit → String
  | .sr p _ _ => p
  | .whole p _ => p

/-- An item yielded by the external `find_original_update_blocks` decoder: a
shell-command pseudo-edit (whose first tuple slot is `None`) or a
search/replace block `(path, original, updated)`. -/
inductive RawBlock
  | shellCmd (cmd : String)
  | editBlock (path original updated : String)
deriving DecidableEq, Repr

/-- The classification registry: the fields `editable_files` and
`context_files` of `MarkdownEditorCoder`. -/
structure Registry where
  editable_files : Finset String
  context_files : Finset String
deriving DecidableEq

/-- `MarkdownEditorCoder._classify_files`, run from `__init__` on the initially
empty sets: all of `abs_fnames` become editable, then every read-only file is
added to context and discarded from editable (so context wins ties). -/
def classify_files (abs_fnames abs_read_only_fnames : List String) : Registry :=
  let reg := abs_fnames.foldl
    (fun r fname => { r with editable_files := insert fname r.editable_files })
    ⟨∅, ∅⟩
  abs_read_only_fnames.foldl
    (fun r fname =>
      { editable_files := r.editable_files.erase fname,
        context_files := insert fname r.context_files })
    reg

/-- `MarkdownEditorCoder.add_rel_fname` (registry effect): context mode inserts
into `context_files` and discards from `editable_files`; any other mode does
the opposite. -/
def add_rel_fname (abs_root_path : String → String) (reg : Registry)
    (fname mode : String) : Registry :=
  let abs_fname := abs_root_path fname
  if mode == "context" then
    { editable_files := reg.editable_files.erase abs_fname,
      context_files := insert abs_fname reg.context_files }
  else
    { editable_files := insert abs_fname reg.editable_files,
      context_files := reg.context_files.erase abs_fname }

/-- `MarkdownEditorCoder.drop_rel_fname` (registry effect): discard from both sets. -/
def drop_rel_fname (abs_root_path : String → String) (reg : Registry)
    (fname : String) : Registry :=
  let abs_fname := abs_root_path fname
  { editable_files := reg.editable_files.erase abs_fname,
    context_files := reg.context_files.erase abs_fname }

/-- The filename-cleanup chain of `_parse_whole_file_format` applied to the line
preceding an opening fence (source lines 146-161): whitespace strip, strip
surrounding `*`, strip trailing `:`, strip surrounding backticks, strip leading
`#`, whitespace strip again, reject results longer than 250 characters, and
collapse to the basename when the name is not an in-chat file but its basename
is. -/
def cleanFname (raw : String) (chat_files : List String) : String :=
  let fname := pyStripWs raw
  let fname := pyStrip fname ['*']
  let fname := pyRstrip fname [':']
  let fname := pyStrip fname ("`".data)
  let fname := pyLstrip fname ['#']
  let fname := pyStripWs fname
  let fname := if 250 < fname.data.length then "" else fname
  if !(fname == "") && !(chat_files.contains fname)
      && chat_files.contains (pathName fname) then
    pathName fname
  else fname

/-- The inline-mention scan of `_parse_whole_file_format` (source lines
176-182): outside any block, each whitespace-delimited word of the line, after
stripping trailing `.:,;!`, is compared with every in-chat file quoted in
backticks; a match updates the remembered `saw_fname`. -/
def updateSaw (chat_files : List String) (saw_fname : Option String)
    (line : String) : Option String :=
  (pySplitWs (pyStripWs line)).foldl
    (fun acc word =>
      let word := pyRstrip word ['.', ':', ',', ';', '!']
      chat_files.foldl
        (fun a chat_file =>
          if word == "`" ++ chat_file ++ "`" then some chat_file else a)
        acc)
    saw_fname

/-- Whether a line opens or closes a fenced block: Python
`line.startswith(self.fence[0]) or line.startswith(self.fence[1])`. -/
def isFenceLine (fence : String × String) (line : String) : Bool :=
  startsWithStr line fence.1 || startsWithStr line fence.2

/-- The line-by-line state machine of `_parse_whole_file_format` (source lines
132-182).  State: the remaining lines, the previous line (`none` when at index
0), `saw_fname`, the current `fname` (note: Python distinguishes `None` from
the empty string here — an unresolved block at index `i > 0` leaves `fname`
equal to `""`, which is *not* `None`, so later lines are still accumulated),
the accumulated `new_lines`, and the emitted edits.  The only fallible spot in
the Python is the `chat_files[0]` subscript, modelled by the `.error` branch. -/
def wfLoop (fence : String × String) (chat_files : List String) :
    List String → Option String → Option String → Option String →
    List String → List (String × String) → Except String (List (String × String))
  | [], _prev, _saw, fname, new_lines, edits =>
    -- final-block handling (source lines 184-187): flush only if non-empty
    match fname with
    | some f =>
      if !new_lines.isEmpty then .ok (edits ++ [(f, joinStr new_lines)])
      else .ok edits
    | none => .ok edits
  | line :: rest, prev, saw_fname, fname, new_lines, edits =>
    if isFenceLine fence line then
      match fname with
      | some f =>
        -- ending an existing block
        wfLoop fence chat_files rest (some line) saw_fname none []
          (edits ++ [(f, joinStr new_lines)])
      | none =>
        -- starting a new block
        match prev with
        | some p =>
          -- i > 0: Python assigns fname the cleaned previous line
          let cand := cleanFname p chat_files
          if !(cand == "") then
            wfLoop fence chat_files rest (some line) saw_fname (some cand)
              new_lines edits
          else
            match saw_fname with
            | some sf =>
              wfLoop fence chat_files rest (some line) saw_fname (some sf)
                new_lines edits
            | none =>
              if chat_files.length == 1 then
                match chat_files.get? 0 with
                | some cf =>
                  wfLoop fence chat_files rest (some line) saw_fname (some cf)
                    new_lines edits
                | none => .error "IndexError"
              else
                -- `continue`: Python leaves fname = "" (not None) here
                wfLoop fence chat_files rest (some line) saw_fname (some "")
                  new_lines edits
        | none =>
          -- i == 0: fname is still None when the fallback chain runs
          match saw_fname with
          | some sf =>
            wfLoop fence chat_files rest (some line) saw_fname (some sf)
              new_lines edits
          | none =>
            if chat_files.length == 1 then
              match chat_files.get? 0 with
              | some cf =>
                wfLoop fence chat_files rest (some line) saw_fname (some cf)
                  new_lines edits
              | none => .error "IndexError"
            else
              -- `continue`: fname remains None
              wfLoop fence chat_files rest (some line) saw_fname none
                new_lines edits
    else
      match fname with
      | some f =>
        wfLoop fence chat_files rest (some line) saw_fname (some f)
          (new_lines ++ [line]) edits
      | none =>
        wfLoop fence chat_files rest (some line)
          (updateSaw chat_files saw_fname line) none new_lines edits

/-- `MarkdownEditorCoder._parse_whole_file_format`.  The `mode` parameter is
accepted but never read, exactly as in the source. -/
def parse_whole_file_format (fence : String × String) (chat_files : List String)
    (content : String) (_mode : String) : Except String (List (String × String)) :=
  wfLoop fence chat_files (splitLinesKeep content) none none none [] []

/-- The content sniff of `get_edits` (source line 71):
`"<<<<<<< SEARCH" in content and ">>>>>>> REPLACE" in content`. -/
def hasSRMarkers (content : String) : Bool :=
  strContains content "<<<<<<< SEARCH" && strContains content ">>>>>>> REPLACE"

/-- The decoder dispatch of `get_edits` (source lines 68-85): with both markers
present, the external block decoder runs, path-less pseudo-edits are appended
to `shell_commands` and the rest become search/replace edits; otherwise the
fence scanner runs and every pair becomes a whole-file edit.  Both decoders are
passed explicitly so that non-invocation is expressible. -/
def extract_edits
    (find_original_update_blocks : String → String × String → List String → List RawBlock)
    (scanner : String → Except String (List (String × String)))
    (content : String) (fence : String × String) (chat_files : List String)
    (shell_commands : List String) :
    Except String (List Edit × List String) :=
  if hasSRMarkers content then
    let blocks := find_original_update_blocks content fence chat_files
    let shell' := shell_commands ++ blocks.filterMap (fun b =>
      match b with
      | .shellCmd cmd => some cmd
      | .editBlock _ _ _ => none)
    let edits := blocks.filterMap (fun b =>
      match b with
      | .shellCmd _ => none
      | .editBlock p o u => some (Edit.sr p o u))
    .ok (edits, shell')
  else
    match scanner content with
    | .error e => .error e
    | .ok pairs => .ok (pairs.map (fun pc => Edit.whole pc.1 pc.2), shell_commands)

/-- Result of the edit-filter pass of `get_edits`: the (possibly promoted)
registry, the surviving edits, and the diagnostics sent to `io.tool_error`. -/
structure FilterResult where
  reg : Registry
  filtered_edits : List Edit
  errors : List String
deriving DecidableEq

/-- The diagnostic emitted for a context-only target (source lines 96 and 110). -/
def context_only_msg (path : String) : String :=
  "Cannot edit " ++ path ++ ": file is marked as context-only"

/-- The edit-filter loop of `get_edits` (source lines 87-118).  The source
duplicates the identical body for the 3-tuple and 2-tuple arms; here the shared
body uses `Edit.path`.  A context-only target is reported and dropped; an
accepted target is auto-promoted into `editable_files` when absent. -/
def filterGo (abs_root_path : String → String) :
    Registry → List Edit → FilterResult
  | reg, [] => ⟨reg, [], []⟩
  | reg, e :: rest =>
    let full_path := abs_root_path e.path
    if full_path ∈ reg.context_files then
      let r := filterGo abs_root_path reg rest
      ⟨r.reg, r.filtered_edits, context_only_msg e.path :: r.errors⟩
    else
      let reg' : Registry :=
        if full_path ∈ reg.editable_files then reg
        else { reg with editable_files := insert full_path reg.editable_files }
      let r := filterGo abs_root_path reg' rest
      ⟨r.reg, e :: r.filtered_edits, r.errors⟩

/-- The filter pass of `get_edits` as a function of the registry and the
extracted edit list. -/
def filter_edits (abs_root_path : String → String) (reg : Registry)
    (edits : List Edit) : FilterResult :=
  filterGo abs_root_path reg edits

/-- `MarkdownEditorCoder.get_edits`: dispatch on marker presence, then the
filter pass.  Returns the surviving edits, the updated registry, the updated
shell-command list and the diagnostics. -/
def get_edits (abs_root_path : String → String)
    (find_original_update_blocks : String → String × String → List String → List RawBlock)
    (fence : String × String) (chat_files : List String) (reg : Registry)
    (shell_commands : List String) (content : String) (mode : String) :
    Except String (List Edit × Registry × List String × List String) :=
  match extract_edits find_original_update_blocks
      (fun c => parse_whole_file_format fence chat_files c mode)
      content fence chat_files shell_commands with
  | .error e => .error e
  | .ok (edits, shell') =>
    let fr := filter_edits abs_root_path reg edits
    .ok (fr.filtered_edits, fr.reg, shell', fr.errors)

/-- Mutable state threaded through `apply_edits`: the filesystem (a map from
absolute path to content; `none` means the file does not exist), the
`applied_files` list and the `failed_edits` list. -/
structure ApplyState where
  fs : String → Option String
  applied_files : List String
  failed_edits : List (String × String × String)

/-- A filesystem write (`io.write_text`): point update of the map. -/
def fsWrite (fs : String → Option String) (path text : String) :
    String → Option String :=
  fun q => if q == path then some text else fs q

/-- The per-edit loop of `apply_edits` (source lines 196-225).  A
search/replace edit on a missing file fails; on an existing file the external
`do_replace` runs and its result is tested for Python truthiness (`None` and
`""` are falsy).  A whole-file edit always writes (the write is modelled as
total) unless dry-run, in which case the path is recorded without writing. -/
def applyGo (abs_root_path : String → String)
    (do_replace : String → String → String → String → String × String → Option String)
    (fence : String × String) (dry_run : Bool) : ApplyState → List Edit → ApplyState
  | st, [] => st
  | st, e :: rest =>
    match e with
    | .sr path original updated =>
      let full_path := abs_root_path path
      match st.fs full_path with
      | some content =>
        match do_replace full_path content original updated fence with
        | some new_content =>
          if !(new_content == "") then
            applyGo abs_root_path do_replace fence dry_run
              { fs := if dry_run then st.fs else fsWrite st.fs full_path new_content,
                applied_files := st.applied_files ++ [path],
                failed_edits := st.failed_edits } rest
          else
            applyGo abs_root_path do_replace fence dry_run
              { st with failed_edits := st.failed_edits ++ [(path, original, updated)] } rest
        | none =>
          applyGo abs_root_path do_replace fence dry_run
            { st with failed_edits := st.failed_edits ++ [(path, original, updated)] } rest
      | none =>
        applyGo abs_root_path do_replace fence dry_run
          { st with failed_edits := st.failed_edits ++ [(path, original, updated)] } rest
    | .whole path content =>
      let full_path := abs_root_path path
      if dry_run then
        applyGo abs_root_path do_replace fence dry_run
          { st with applied_files := st.applied_files ++ [path] } rest
      else
        applyGo abs_root_path do_replace fence dry_run
          { st with fs := fsWrite st.fs full_path content,
                    applied_files := st.applied_files ++ [path] } rest

/-- One failed-block section of the aggregate failure message (the f-string at
source lines 233-239). -/
def failBlockSection (e : String × String × String) : String :=
  "\n## SearchReplaceNoExactMatch: This SEARCH block failed to exactly match lines in "
    ++ e.1 ++ "\n<<<<<<< SEARCH\n" ++ e.2.1 ++ "=======\n" ++ e.2.2
    ++ ">>>>>>> REPLACE\n\n"

/-- The fixed trailing instruction of the aggregate failure message (source
lines 240-243). -/
def failTrailer : String :=
  "The SEARCH section must exactly match an existing block of lines including all white"
    ++ " space, comments, indentation, docstrings, etc\n"

/-- The aggregate failure message built at source lines 229-243. -/
def formatFailMsg (failed_edits : List (String × String × String)) : String :=
  let blocks := if failed_edits.length == 1 then "block" else "blocks"
  let res := "# " ++ toString failed_edits.length ++ " SEARCH/REPLACE " ++ blocks
    ++ " failed to match!\n"
  let res := failed_edits.foldl (fun acc e => acc ++ failBlockSection e) res
  res ++ failTrailer

/-- Result of `apply_edits`: the final filesystem, the `applied_files` return
value, the accumulated `failed_edits`, and the raised `ValueError` message (the
exception is modelled as the `raised` field; the filesystem and applied list
are reported alongside because raising does not undo writes already made). -/
structure ApplyResult where
  fs : String → Option String
  applied_files : List String
  failed_edits : List (String × String × String)
  raised : Option String

/-- `MarkdownEditorCoder.apply_edits` (source lines 191-246): process every
edit, then raise the aggregate message iff some search/replace edit failed and
the run is not dry-run. -/
def apply_edits (abs_root_path : String → String)
    (do_replace : String → String → String → String → String × String → Option String)
    (fence : String × String) (fs : String → Option String)
    (edits : List Edit) (dry_run : Bool) : ApplyResult :=
  let st := applyGo abs_root_path do_replace fence dry_run ⟨fs, [], []⟩ edits
  if !st.failed_edits.isEmpty && !dry_run then
    ⟨st.fs, st.applied_files, st.failed_edits, some (formatFailMsg st.failed_edits)⟩
  else
    ⟨st.fs, st.applied_files, st.failed_edits, none⟩

/-- A registry-mutating operation drawn from the claim C1 alphabet:
`add_rel_fname` (either mode), `drop_rel_fname`, or a `get_edits` filter pass
(whose auto-promotions mutate `editable_files`). -/
inductive RegOp
  | addOp (fname mode : String)
  | dropOp (fname : String)
  | editsOp (edits : List Edit)
deriving DecidableEq, Repr

/-- Apply a single registry operation. -/
def applyRegOp (abs_root_path : String → String) (reg : Registry) :
    RegOp → Registry
  | .addOp fname mode => add_rel_fname abs_root_path reg fname mode
  | .dropOp fname => drop_rel_fname abs_root_path reg fname
  | .editsOp edits => (filter_edits abs_root_path reg edits).reg

/-- Run a sequence of registry operations from an initial classification. -/
def runRegOps (abs_root_path : String → String)
    (abs_fnames abs_read_only_fnames : List String) (ops : List RegOp) : Registry :=
  ops.foldl (applyRegOp abs_root_path) (classify_files abs_fnames abs_read_only_fnames)

/-- Modelled from the spec: the whole-file fenced encoding of a `(path,
content)` pair — the path on its own line, the opening fence line, the content,
the closing fence line.  This is the spec's round-trip encoder (claim C9), not
source code. -/
def encodeWholeSpec (fence : String × String) (path content : String) : String :=
  path ++ "\n" ++ fence.1 ++ "\n" ++ content ++ fence.2 ++ "\n"

/-- Modelled from the spec: the paths a dry run "would have touched" according
to claim C7 — every whole-file edit's path, and a search/replace edit's path
exactly when its file exists and its original text reconciles. -/
def wouldTouchSpec (abs_root_path : String → String)
    (do_replace : String → String → String → String → String × String → Option String)
    (fence : String × String) (fs : String → Option String) : Edit → Option String
  | .whole p _ => some p
  | .sr p o u =>
    match fs (abs_root_path p) with
    | some c =>
      match do_replace (abs_root_path p) c o u fence with
      | some nc => if !(nc == "") then some p else none
      | none => none
    | none => none

/-! ### Registry lemmas -/

/-- The disjointness invariant of the classification registry. -/
def DisjReg (reg : Registry) : Prop :=
  ∀ x, x ∈ reg.editable_files → x ∉ reg.context_files

theorem disjReg_context_add {reg : Registry} (h : DisjReg reg) (f : String) :
    DisjReg ⟨reg.editable_files.erase f, insert f reg.context_files⟩ := by
  intro x hx
  rcases Finset.mem_erase.mp hx with ⟨hne, hmem⟩
  intro hc
  rcases Finset.mem_insert.mp hc with rfl | hc
  · exact hne rfl
  · exact h x hmem hc

theorem disjReg_editable_add {reg : Registry} (h : DisjReg reg) (f : String) :
    DisjReg ⟨insert f reg.editable_files, reg.context_files.erase f⟩ := by
  intro x hx hc
  rcases Finset.mem_insert.mp hx with rfl | hx
  · exact (Finset.mem_erase.mp hc).1 rfl
  · exact h x hx (Finset.mem_erase.mp hc).2

theorem disjReg_drop {reg : Registry} (h : DisjReg reg) (f : String) :
    DisjReg ⟨reg.editable_files.erase f, reg.context_files.erase f⟩ := by
  intro x hx hc
  exact h x (Finset.mem_erase.mp hx).2 (Finset.mem_erase.mp hc).2

theorem classify_fold1_context (abs_fnames : List String) (r : Registry) :
    (abs_fnames.foldl
      (fun r fname => { r with editable_files := insert fname r.editable_files })
      r).context_files = r.context_files := by
  induction abs_fnames generalizing r with
  | nil => rfl
  | cons f rest ih => exact ih _

theorem disjReg_classify (abs_fnames abs_read_only_fnames : List String) :
    DisjReg (classify_files abs_fnames abs_read_only_fnames) := by
  unfold classify_files
  have h1 : DisjReg (abs_fnames.foldl
      (fun r fname => { r with editable_files := insert fname r.editable_files })
      (⟨∅, ∅⟩ : Registry)) := by
    intro x _ hc
    rw [classify_fold1_context] at hc
    exact absurd hc (Finset.not_mem_empty x)
  have h2 : ∀ (r : Registry), DisjReg r →
      DisjReg (abs_read_only_fnames.foldl
        (fun r fname =>
          { editable_files := r.editable_files.erase fname,
            context_files := insert fname r.context_files }) r) := by
    intro r hr
    induction abs_read_only_fnames generalizing r with
    | nil => exact hr
    | cons f rest ih => exact ih _ (disjReg_context_add hr f)
  exact h2 _ h1

theorem disjReg_add_rel_fname (abs_root_path : String → String) {reg : Registry}
    (h : DisjReg reg) (fname mode : String) :
    DisjReg (add_rel_fname abs_root_path reg fname mode) := by
  unfold add_rel_fname
  by_cases hm : (mode == "context") = true
  · rw [if_pos hm]
    exact disjReg_context_add h _
  · rw [if_neg hm]
    exact disjReg_editable_add h _

theorem disjReg_drop_rel_fname (abs_root_path : String → String) {reg : Registry}
    (h : DisjReg reg) (fname : String) :
    DisjReg (drop_rel_fname abs_root_path reg fname) :=
  disjReg_drop h _

theorem filterGo_context (a : String → String) (reg : Registry) (es : List Edit) :
    (filterGo a reg es).reg.context_files = reg.context_files := by
  induction es generalizing reg with
  | nil => rfl
  | cons e rest ih =>
    by_cases h : a e.path ∈ reg.context_files
    · simp only [filterGo, if_pos h]
      exact ih reg
    · by_cases h2 : a e.path ∈ reg.editable_files
      · simp only [filterGo, if_neg h, if_pos h2]
        exact ih reg
      · simp only [filterGo, if_neg h, if_neg h2]
        exact ih _

theorem disjReg_filterGo (a : String → String) {reg : Registry}
    (h : DisjReg reg) (es : List Edit) : DisjReg (filterGo a reg es).reg := by
  induction es generalizing reg with
  | nil => exact h
  | cons e rest ih =>
    by_cases hc : a e.path ∈ reg.context_files
    · simp only [filterGo, if_pos hc]
      exact ih h
    · by_cases h2 : a e.path ∈ reg.editable_files
      · simp only [filterGo, if_neg hc, if_pos h2]
        exact ih h
      · simp only [filterGo, if_neg hc, if_neg h2]
        refine ih ?_
        intro x hx
        rcases Finset.mem_insert.mp hx with rfl | hx
        · exact hc
        · exact h x hx

theorem disjReg_runRegOps (abs_root_path : String → String)
    (abs_fnames abs_read_only_fnames : List String) (ops : List RegOp) :
    DisjReg (runRegOps abs_root_path abs_fnames abs_read_only_fnames ops) := by
  unfold runRegOps
  have h : ∀ (reg : Registry), DisjReg reg →
      DisjReg (ops.foldl (applyRegOp abs_root_path) reg) := by
    intro reg hr
    induction ops generalizing reg with
    | nil => exact hr
    | cons op rest ih =>
      refine ih _ ?_
      cases op with
      | addOp fname mode => exact disjReg_add_rel_fname _ hr fname mode
      | dropOp fname => exact disjReg_drop_rel_fname _ hr fname
      | editsOp edits => exact disjReg_filterGo _ hr edits
  exact h _ (disjReg_classify abs_fnames abs_read_only_fnames)

/-- C1: for every sequence of operations drawn from session-start
classification, `add_rel_fname` (either mode), `drop_rel_fname`, and the
auto-promotions performed by the `get_edits` filter pass, the sets
`editable_files` and `context_files` have empty intersection after every
operation, starting from the initial classification in which read-only
(context) files win ties over editable files. -/
theorem C1_registry_disjoint (abs_root_path : String → String)
    (abs_fnames abs_read_only_fnames : List String) (ops : List RegOp) :
    (runRegOps abs_root_path abs_fnames abs_read_only_fnames ops).editable_files ∩
      (runRegOps abs_root_path abs_fnames abs_read_only_fnames ops).context_files = ∅ := by
  have h := disjReg_runRegOps abs_root_path abs_fnames abs_read_only_fnames ops
  apply Finset.eq_empty_iff_forall_not_mem.mpr
  intro x hx
  rcases Finset.mem_inter.mp hx with ⟨h1, h2⟩
  exact h x h1 h2

/-! ### Filter-pass lemmas -/

theorem filterGo_editable_mono (a : String → String) (reg : Registry)
    (es : List Edit) : reg.editable_files ⊆ (filterGo a reg es).reg.editable_files := by
  induction es generalizing reg with
  | nil => exact Finset.Subset.refl _
  | cons e rest ih =>
    by_cases h : a e.path ∈ reg.context_files
    · simp only [filterGo, if_pos h]
      exact ih reg
    · by_cases h2 : a e.path ∈ reg.editable_files
      · simp only [filterGo, if_neg h, if_pos h2]
        exact ih reg
      · simp only [filterGo, if_neg h, if_neg h2]
        exact fun x hx => ih _ (Finset.mem_insert_of_mem hx)

theorem filterGo_editable_from (a : String → String) (reg : Registry)
    (es : List Edit) :
    ∀ x ∈ (filterGo a reg es).reg.editable_files,
      x ∈ reg.editable_files ∨ ∃ e ∈ es, x = a e.path := by
  induction es generalizing reg with
  | nil => exact fun x hx => Or.inl hx
  | cons e rest ih =>
    intro x hx
    by_cases h : a e.path ∈ reg.context_files
    · simp only [filterGo, if_pos h] at hx
      rcases ih reg x hx with h1 | ⟨e', he', rfl⟩
      · exact Or.inl h1
      · exact Or.inr ⟨e', List.mem_cons_of_mem _ he', rfl⟩
    · by_cases h2 : a e.path ∈ reg.editable_files
      · simp only [filterGo, if_neg h, if_pos h2] at hx
        rcases ih reg x hx with h1 | ⟨e', he', rfl⟩
        · exact Or.inl h1
        · exact Or.inr ⟨e', List.mem_cons_of_mem _ he', rfl⟩
      · simp only [filterGo, if_neg h, if_neg h2] at hx
        rcases ih _ x hx with h1 | ⟨e', he', rfl⟩
        · rcases Finset.mem_insert.mp h1 with rfl | h3
          · exact Or.inr ⟨e, List.mem_cons_self _ _, rfl⟩
          · exact Or.inl h3
        · exact Or.inr ⟨e', List.mem_cons_of_mem _ he', rfl⟩

theorem filterGo_tracked_id (a : String → String) (reg : Registry)
    (es : List Edit)
    (h : ∀ e ∈ es, a e.path ∈ reg.editable_files ∨ a e.path ∈ reg.context_files) :
    (filterGo a reg es).reg = reg := by
  induction es generalizing reg with
  | nil => rfl
  | cons e rest ih =>
    by_cases hc : a e.path ∈ reg.context_files
    · simp only [filterGo, if_pos hc]
      exact ih reg (fun e' he' => h e' (List.mem_cons_of_mem _ he'))
    · have he : a e.path ∈ reg.editable_files := by
        rcases h e (List.mem_cons_self _ _) with h1 | h1
        · exact h1
        · exact absurd h1 hc
      simp only [filterGo, if_neg hc, if_pos he]
      exact ih reg (fun e' he' => h e' (List.mem_cons_of_mem _ he'))

theorem filterGo_filtered_sound (a : String → String) (reg : Registry)
    (es : List Edit) :
    ∀ e ∈ (filterGo a reg es).filtered_edits,
      a e.path ∈ (filterGo a reg es).reg.editable_files ∧
        a e.path ∉ reg.context_files := by
  induction es generalizing reg with
  | nil => intro e he; exact absurd he (List.not_mem_nil e)
  | cons e0 rest ih =>
    intro e he
    by_cases h : a e0.path ∈ reg.context_files
    · simp only [filterGo, if_pos h] at he ⊢
      exact ih reg e he
    · by_cases h2 : a e0.path ∈ reg.editable_files
      · simp only [filterGo, if_neg h, if_pos h2] at he ⊢
        rcases List.mem_cons.mp he with rfl | he'
        · exact ⟨filterGo_editable_mono a reg rest h2, h⟩
        · exact ih reg e he'
      · simp only [filterGo, if_neg h, if_neg h2] at he ⊢
        rcases List.mem_cons.mp he with rfl | he'
        · exact ⟨filterGo_editable_mono a _ rest (Finset.mem_insert_self _ _), h⟩
        · rcases ih _ e he' with ⟨ha, hb⟩
          exact ⟨ha, hb⟩

theorem filterGo_rejected (a : String → String) (reg : Registry) (es : List Edit) :
    ∀ e ∈ es, a e.path ∈ reg.context_files →
      context_only_msg e.path ∈ (filterGo a reg es).errors := by
  induction es generalizing reg with
  | nil => intro e he; exact absurd he (List.not_mem_nil e)
  | cons e0 rest ih =>
    intro e he hc
    rcases List.mem_cons.mp he with rfl | he'
    · simp only [filterGo, if_pos hc]
      exact List.mem_cons_self _ _
    · by_cases h : a e0.path ∈ reg.context_files
      · simp only [filterGo, if_pos h]
        exact List.mem_cons_of_mem _ (ih reg e he' hc)
      · by_cases h2 : a e0.path ∈ reg.editable_files
        · simp only [filterGo, if_neg h, if_pos h2]
          exact ih reg e he' hc
        · simp only [filterGo, if_neg h, if_neg h2]
          exact ih _ e he' hc

theorem filterGo_accepted (a : String → String) (reg : Registry) (es : List Edit) :
    ∀ e ∈ es, a e.path ∉ reg.context_files →
      e ∈ (filterGo a reg es).filtered_edits := by
  induction es generalizing reg with
  | nil => intro e he; exact absurd he (List.not_mem_nil e)
  | cons e0 rest ih =>
    intro e he hc
    rcases List.mem_cons.mp he with rfl | he'
    · simp only [filterGo, if_neg hc]
      by_cases h2 : a e.path ∈ reg.editable_files
      · rw [if_pos h2]
        exact List.mem_cons_self _ _
      · rw [if_neg h2]
        exact List.mem_cons_self _ _
    · by_cases h : a e0.path ∈ reg.context_files
      · simp only [filterGo, if_pos h]
        exact ih reg e he' hc
      · by_cases h2 : a e0.path ∈ reg.editable_files
        · simp only [filterGo, if_neg h, if_pos h2]
          exact List.mem_cons_of_mem _ (ih reg e he' hc)
        · simp only [filterGo, if_neg h, if_neg h2]
          exact List.mem_cons_of_mem _ (ih _ e he' hc)

theorem applyGo_applied_from (a : String → String)
    (dr : String → String → String → String → String × String → Option String)
    (fence : String × String) (dry_run : Bool) (st : ApplyState) (es : List Edit) :
    ∀ p ∈ (applyGo a dr fence dry_run st es).applied_files,
      p ∈ st.applied_files ∨ ∃ e ∈ es, Edit.path e = p := by
  induction es generalizing st with
  | nil => intro p hp; exact Or.inl hp
  | cons e rest ih =>
    have step : ∀ (st' : ApplyState),
        (st'.applied_files = st.applied_files ∨
          st'.applied_files = st.applied_files ++ [e.path]) →
        ∀ p ∈ (applyGo a dr fence dry_run st' rest).applied_files,
          p ∈ st.applied_files ∨ ∃ e' ∈ e :: rest, Edit.path e' = p := by
      intro st' hst p hp
      rcases ih st' p hp with h1 | ⟨e', he', rfl⟩
      · rcases hst with h2 | h2
        · rw [h2] at h1
          exact Or.inl h1
        · rw [h2] at h1
          rcases List.mem_append.mp h1 with h3 | h3
          · exact Or.inl h3
          · rcases List.mem_singleton.mp h3 with rfl
            exact Or.inr ⟨e, List.mem_cons_self _ _, rfl⟩
      · exact Or.inr ⟨e', List.mem_cons_of_mem _ he', rfl⟩
    intro p hp
    cases e with
    | sr path original updated =>
      simp only [applyGo] at hp
      rcases hfs : st.fs (a path) with _ | content
      · simp only [hfs] at hp
        exact step { st with failed_edits := st.failed_edits ++ [(path, original, updated)] }
          (Or.inl rfl) p hp
      · simp only [hfs] at hp
        rcases hdr : dr (a path) content original updated fence with _ | nc
        · simp only [hdr] at hp
          exact step { st with failed_edits := st.failed_edits ++ [(path, original, updated)] }
            (Or.inl rfl) p hp
        · simp only [hdr] at hp
          by_cases hnc : (!(nc == "")) = true
          · rw [if_pos hnc] at hp
            exact step _ (Or.inr rfl) p hp
          · rw [if_neg hnc] at hp
            exact step { st with failed_edits := st.failed_edits ++ [(path, original, updated)] }
              (Or.inl rfl) p hp
    | whole path content =>
      simp only [applyGo] at hp
      by_cases hd : dry_run = true
      · rw [if_pos hd] at hp
        exact step _ (Or.inr rfl) p hp
      · rw [if_neg hd] at hp
        exact step _ (Or.inr rfl) p hp

theorem apply_edits_applied (a : String → String)
    (dr : String → String → String → String → String × String → Option String)
    (fence : String × String) (fs : String → Option String) (es : List Edit)
    (dry_run : Bool) :
    (apply_edits a dr fence fs es dry_run).applied_files =
      (applyGo a dr fence dry_run ⟨fs, [], []⟩ es).applied_files := by
  simp only [apply_edits]
  split <;> rfl

/-- Extensionality for the string model: equal character data gives equal strings. -/
theorem stringExt {a b : String} (h : a.data = b.data) : a = b := by
  cases a; cases b; exact congrArg String.mk h

/-! ### Claims C6 and C5 -/

/-- C6 counterexample: the claim that an edit-filter pass leaves the registry
exactly unchanged fails on the concrete input of a single whole-file edit for
the untracked path `a.md` against the empty registry — the pass auto-promotes
`a.md` into `editable_files`. -/
theorem C6_counterexample :
    (filter_edits (fun s => s) ⟨∅, ∅⟩ [Edit.whole "a.md" "x"]).reg.editable_files ≠
      (Registry.mk ∅ ∅).editable_files := by
  simp [filter_edits, filterGo, Edit.path]

/-- C6 (amended): an edit-filter pass never writes `context_files`, and writes
`editable_files` only by inserting resolved paths of processed edits
(auto-promotion); in particular, when every edit's resolved path is already
tracked in one of the two sets, the registry is exactly unchanged. -/
theorem C6_filter_registry_frame (a : String → String) (reg : Registry)
    (edits : List Edit) :
    (filter_edits a reg edits).reg.context_files = reg.context_files ∧
    reg.editable_files ⊆ (filter_edits a reg edits).reg.editable_files ∧
    (∀ x ∈ (filter_edits a reg edits).reg.editable_files,
        x ∈ reg.editable_files ∨ ∃ e ∈ edits, x = a e.path) ∧
    ((∀ e ∈ edits, a e.path ∈ reg.editable_files ∨ a e.path ∈ reg.context_files) →
        (filter_edits a reg edits).reg = reg) :=
  ⟨filterGo_context a reg edits, filterGo_editable_mono a reg edits,
   filterGo_editable_from a reg edits, filterGo_tracked_id a reg edits⟩

/-- Witness for C6 (amended): with both edit targets already tracked, the
filter pass returns the registry unchanged. -/
theorem C6_filter_registry_frame_witness :
    (filter_edits (fun s => s) ⟨{"a.md"}, {"b.md"}⟩
        [Edit.whole "a.md" "x", Edit.sr "b.md" "o" "u"]).reg =
      (⟨{"a.md"}, {"b.md"}⟩ : Registry) :=
  (C6_filter_registry_frame (fun s => s) ⟨{"a.md"}, {"b.md"}⟩
      [Edit.whole "a.md" "x", Edit.sr "b.md" "o" "u"]).2.2.2 (by decide)

/-- C5: an edit whose resolved path is in `context_files` gets the diagnostic
`Cannot edit <path>: file is marked as context-only` recorded (a message that
contains the text `file is marked as context-only`) and is dropped, while
filtering continues: every edit with a non-context path survives; every
surviving edit's resolved path is in the (post-pass) `editable_files` and not
in `context_files`; and a path resolving into `context_files` never appears in
the applied list returned by `apply_edits` run on the filtered edits. -/
theorem C5_context_policy (a : String → String) (reg : Registry)
    (edits : List Edit) :
    (∀ e ∈ edits, a e.path ∈ reg.context_files →
        context_only_msg e.path ∈ (filter_edits a reg edits).errors ∧
          e ∉ (filter_edits a reg edits).filtered_edits) ∧
    (∀ e ∈ edits, a e.path ∉ reg.context_files →
        e ∈ (filter_edits a reg edits).filtered_edits) ∧
    (∀ e ∈ (filter_edits a reg edits).filtered_edits,
        a e.path ∈ (filter_edits a reg edits).reg.editable_files ∧
          a e.path ∉ (filter_edits a reg edits).reg.context_files) ∧
    (∀ p, ∃ pre post,
        context_only_msg p = pre ++ "file is marked as context-only" ++ post) ∧
    (∀ (dr : String → String → String → String → String × String → Option String)
        (fence : String × String) (fs : String → Option String) (dry_run : Bool)
        (p : String), a p ∈ reg.context_files →
        p ∉ (apply_edits a dr fence fs (filter_edits a reg edits).filtered_edits
              dry_run).applied_files) := by
  refine ⟨?_, ?_, ?_, ?_, ?_⟩
  · intro e he hc
    refine ⟨filterGo_rejected a reg edits e he hc, ?_⟩
    intro hmem
    exact (filterGo_filtered_sound a reg edits e hmem).2 hc
  · intro e he hc
    exact filterGo_accepted a reg edits e he hc
  · intro e he
    rcases filterGo_filtered_sound a reg edits e he with ⟨h1, h2⟩
    refine ⟨h1, ?_⟩
    rw [show (filter_edits a reg edits).reg.context_files = reg.context_files from
      filterGo_context a reg edits]
    exact h2
  · intro p
    refine ⟨"Cannot edit " ++ p ++ ": ", "", ?_⟩
    apply stringExt
    simp [context_only_msg, String.data_append]
  · intro dr fence fs dry_run p hc hp
    rw [apply_edits_applied] at hp
    rcases applyGo_applied_from a dr fence dry_run _ _ p hp with h1 | ⟨e, he, rfl⟩
    · exact absurd h1 (List.not_mem_nil p)
    · exact (filterGo_filtered_sound a reg edits e he).2 hc

/-- Witness for C5: a context-only target is reported and never applied, while
a sibling editable target goes through. -/
theorem C5_context_policy_witness :
    context_only_msg "c.md" ∈
      (filter_edits (fun s => s) ⟨∅, {"c.md"}⟩
          [Edit.whole "c.md" "x", Edit.whole "d.md" "y"]).errors ∧
    "c.md" ∉ (apply_edits (fun s => s) (fun _ _ _ _ _ => none) ("```", "```")
        (fun _ => none)
        (filter_edits (fun s => s) ⟨∅, {"c.md"}⟩
            [Edit.whole "c.md" "x", Edit.whole "d.md" "y"]).filtered_edits
        false).applied_files :=
  ⟨((C5_context_policy (fun s => s) ⟨∅, {"c.md"}⟩
        [Edit.whole "c.md" "x", Edit.whole "d.md" "y"]).1
      (Edit.whole "c.md" "x") (by decide) (by decide)).1,
   (C5_context_policy (fun s => s) ⟨∅, {"c.md"}⟩
        [Edit.whole "c.md" "x", Edit.whole "d.md" "y"]).2.2.2.2
      (fun _ _ _ _ _ => none) ("```", "```") (fun _ => none) false "c.md" (by decide)⟩

/-! ### Claim C7 -/

theorem applyGo_dry (a : String → String)
    (dr : String → String → String → String → String × String → Option String)
    (fence : String × String) (st : ApplyState) (es : List Edit) :
    (applyGo a dr fence true st es).fs = st.fs ∧
    (applyGo a dr fence true st es).applied_files =
      st.applied_files ++ es.filterMap (wouldTouchSpec a dr fence st.fs) := by
  induction es generalizing st with
  | nil => exact ⟨rfl, (List.append_nil _).symm⟩
  | cons e rest ih =>
    cases e with
    | sr path original updated =>
      simp only [applyGo]
      rcases hfs : st.fs (a path) with _ | content
      · simp only [hfs]
        rcases ih { st with failed_edits := st.failed_edits ++ [(path, original, updated)] }
          with ⟨h1, h2⟩
        refine ⟨h1, ?_⟩
        rw [h2]
        simp only [List.filterMap_cons, wouldTouchSpec, hfs]
      · simp only [hfs]
        rcases hdr : dr (a path) content original updated fence with _ | nc
        · simp only [hdr]
          rcases ih { st with failed_edits := st.failed_edits ++ [(path, original, updated)] }
            with ⟨h1, h2⟩
          refine ⟨h1, ?_⟩
          rw [h2]
          simp only [List.filterMap_cons, wouldTouchSpec, hfs, hdr]
        · simp only [hdr]
          by_cases hnc : (!(nc == "")) = true
          · rw [if_pos hnc]
            simp only [if_true]
            rcases ih ⟨st.fs, st.applied_files ++ [path], st.failed_edits⟩ with ⟨h1, h2⟩
            refine ⟨h1, ?_⟩
            rw [h2]
            simp only [List.filterMap_cons, wouldTouchSpec, hfs, hdr, hnc, if_pos,
              List.append_assoc, List.singleton_append]
          · rw [if_neg hnc]
            rcases ih { st with failed_edits := st.failed_edits ++ [(path, original, updated)] }
              with ⟨h1, h2⟩
            refine ⟨h1, ?_⟩
            rw [h2]
            simp only [List.filterMap_cons, wouldTouchSpec, hfs, hdr]
            rw [if_neg hnc]
    | whole path content =>
      simp only [applyGo, if_true]
      rcases ih { st with applied_files := st.applied_files ++ [path] } with ⟨h1, h2⟩
      refine ⟨h1, ?_⟩
      rw [h2]
      simp only [List.filterMap_cons, wouldTouchSpec, List.append_assoc,
        List.singleton_append]

theorem apply_edits_dry_fields (a : String → String)
    (dr : String → String → String → String → String × String → Option String)
    (fence : String × String) (fs : String → Option String) (es : List Edit) :
    apply_edits a dr fence fs es true =
      ⟨(applyGo a dr fence true ⟨fs, [], []⟩ es).fs,
       (applyGo a dr fence true ⟨fs, [], []⟩ es).applied_files,
       (applyGo a dr fence true ⟨fs, [], []⟩ es).failed_edits, none⟩ := by
  simp only [apply_edits]
  split
  · rename_i h
    simp at h
  · rfl

/-- C7: a dry run of `apply_edits` performs zero filesystem writes and never
raises the aggregate error, while still returning exactly the paths that would
have been touched — every whole-file edit's path, and each search/replace
edit's path exactly when its file exists and its original text reconciles to a
truthy result. -/
theorem C7_dry_run_frame (a : String → String)
    (dr : String → String → String → String → String × String → Option String)
    (fence : String × String) (fs : String → Option String) (edits : List Edit) :
    (apply_edits a dr fence fs edits true).fs = fs ∧
    (apply_edits a dr fence fs edits true).raised = none ∧
    (apply_edits a dr fence fs edits true).applied_files =
      edits.filterMap (wouldTouchSpec a dr fence fs) := by
  rcases applyGo_dry a dr fence ⟨fs, [], []⟩ edits with ⟨h1, h2⟩
  rw [apply_edits_dry_fields]
  refine ⟨h1, rfl, ?_⟩
  rw [h2]
  simp

/-! ### Claim C2 -/

theorem apply_edits_failed (a : String → String)
    (dr : String → String → String → String → String × String → Option String)
    (fence : String × String) (fs : String → Option String) (es : List Edit)
    (dry_run : Bool) :
    (apply_edits a dr fence fs es dry_run).failed_edits =
      (applyGo a dr fence dry_run ⟨fs, [], []⟩ es).failed_edits := by
  simp only [apply_edits]
  split <;> rfl

theorem apply_edits_fs (a : String → String)
    (dr : String → String → String → String → String × String → Option String)
    (fence : String × String) (fs : String → Option String) (es : List Edit)
    (dry_run : Bool) :
    (apply_edits a dr fence fs es dry_run).fs =
      (applyGo a dr fence dry_run ⟨fs, [], []⟩ es).fs := by
  simp only [apply_edits]
  split <;> rfl

theorem apply_edits_raised_isSome (a : String → String)
    (dr : String → String → String → String → String × String → Option String)
    (fence : String × String) (fs : String → Option String) (es : List Edit)
    (dry_run : Bool) :
    (apply_edits a dr fence fs es dry_run).raised.isSome =
      (!(apply_edits a dr fence fs es dry_run).failed_edits.isEmpty && !dry_run) := by
  simp only [apply_edits]
  split
  · rename_i h
    simpa using h.symm
  · rename_i h
    rw [Bool.not_eq_true] at h
    simpa using h.symm

theorem apply_edits_raised_msg (a : String → String)
    (dr : String → String → String → String → String × String → Option String)
    (fence : String × String) (fs : String → Option String) (es : List Edit)
    (dry_run : Bool) (m : String)
    (hm : (apply_edits a dr fence fs es dry_run).raised = some m) :
    m = formatFailMsg (apply_edits a dr fence fs es dry_run).failed_edits := by
  revert hm
  simp only [apply_edits]
  split
  · intro hm
    cases hm
    rfl
  · intro hm
    exact absurd hm (by simp)

theorem joinStr_cons (s : String) (l : List String) :
    joinStr (s :: l) = s ++ joinStr l := by
  apply stringExt
  simp [joinStr, joinChars, String.data_append]

theorem foldl_failSections (fe : List (String × String × String)) :
    ∀ res : String,
      fe.foldl (fun acc e => acc ++ failBlockSection e) res =
        res ++ joinStr (fe.map failBlockSection) := by
  induction fe with
  | nil =>
    intro res
    simp only [List.foldl_nil, List.map_nil]
    exact (String.append_empty res).symm
  | cons e rest ih =>
    intro res
    simp only [List.foldl_cons, List.map_cons, ih, joinStr_cons]
    rw [String.append_assoc]

/-- The aggregate message decomposes into the count header, one section per
failed edit (in order), and the fixed trailer. -/
theorem formatFailMsg_shape (fe : List (String × String × String)) :
    formatFailMsg fe =
      ("# " ++ toString fe.length ++ " SEARCH/REPLACE "
          ++ (if fe.length == 1 then "block" else "blocks") ++ " failed to match!\n")
        ++ joinStr (fe.map failBlockSection) ++ failTrailer := by
  simp only [formatFailMsg, foldl_failSections]

/-- C2: (A) a single search/replace edit fails exactly when its target file
does not exist or `do_replace` returns `None`/`""` (Python-falsy); (B) over any
batch, `apply_edits` raises iff the run is not dry-run and at least one
search/replace edit failed, the raised message being the aggregate of the full
failed list (so the raise happens only after every edit was attempted); (C) the
aggregate message is the count header followed by one SEARCH/REPLACE-framed
section per failed `(path, original, updated)` triple, in order, plus the fixed
trailer; (D) in a batch whose first edit fails and second succeeds, the second
edit's write lands and remains on disk, the failed file is untouched, and the
raised message contains exactly the one failed section. -/
theorem C2_apply_edits_failure_semantics (a : String → String)
    (dr : String → String → String → String → String × String → Option String)
    (fence : String × String) (fs : String → Option String) :
    (∀ (p o u : String) (dry_run : Bool),
      ((apply_edits a dr fence fs [Edit.sr p o u] dry_run).failed_edits = [(p, o, u)] ∨
        (apply_edits a dr fence fs [Edit.sr p o u] dry_run).failed_edits = []) ∧
      ((apply_edits a dr fence fs [Edit.sr p o u] dry_run).failed_edits = [(p, o, u)] ↔
        fs (a p) = none ∨ ∃ c, fs (a p) = some c ∧
          (dr (a p) c o u fence = none ∨ dr (a p) c o u fence = some ""))) ∧
    (∀ (edits : List Edit) (dry_run : Bool),
      (apply_edits a dr fence fs edits dry_run).raised.isSome =
        (!(apply_edits a dr fence fs edits dry_run).failed_edits.isEmpty && !dry_run) ∧
      ∀ m, (apply_edits a dr fence fs edits dry_run).raised = some m →
        m = formatFailMsg (apply_edits a dr fence fs edits dry_run).failed_edits) ∧
    (∀ fe : List (String × String × String),
      formatFailMsg fe =
        ("# " ++ toString fe.length ++ " SEARCH/REPLACE "
            ++ (if fe.length == 1 then "block" else "blocks") ++ " failed to match!\n")
          ++ joinStr (fe.map failBlockSection) ++ failTrailer) ∧
    (∀ p1 p2 o1 u1 o2 u2 c1 nc1 : String,
      fs (a p2) = none → fs (a p1) = some c1 →
      dr (a p1) c1 o1 u1 fence = some nc1 → nc1 ≠ "" → a p1 ≠ a p2 →
      (apply_edits a dr fence fs [Edit.sr p2 o2 u2, Edit.sr p1 o1 u1]
          false).applied_files = [p1] ∧
      (apply_edits a dr fence fs [Edit.sr p2 o2 u2, Edit.sr p1 o1 u1]
          false).failed_edits = [(p2, o2, u2)] ∧
      (apply_edits a dr fence fs [Edit.sr p2 o2 u2, Edit.sr p1 o1 u1]
          false).raised =
        some ("# 1 SEARCH/REPLACE block failed to match!\n"
          ++ failBlockSection (p2, o2, u2) ++ failTrailer) ∧
      (apply_edits a dr fence fs [Edit.sr p2 o2 u2, Edit.sr p1 o1 u1]
          false).fs (a p1) = some nc1 ∧
      (apply_edits a dr fence fs [Edit.sr p2 o2 u2, Edit.sr p1 o1 u1]
          false).fs (a p2) = fs (a p2)) := by
  refine ⟨?_, ?_, ?_, ?_⟩
  · intro p o u dry_run
    rw [apply_edits_failed]
    rcases hfs : fs (a p) with _ | c
    · constructor
      · left
        simp [applyGo, hfs]
      · constructor
        · intro _
          exact Or.inl rfl
        · intro _
          simp [applyGo, hfs]
    · rcases hdr : dr (a p) c o u fence with _ | nc
      · constructor
        · left
          simp [applyGo, hfs, hdr]
        · constructor
          · intro _
            exact Or.inr ⟨c, rfl, Or.inl hdr⟩
          · intro _
            simp [applyGo, hfs, hdr]
      · by_cases hnc : nc = ""
        · subst hnc
          constructor
          · left
            simp [applyGo, hfs, hdr]
          · constructor
            · intro _
              exact Or.inr ⟨c, rfl, Or.inr hdr⟩
            · intro _
              simp [applyGo, hfs, hdr]
        · have hb : (!(nc == "")) = true := by simp [hnc]
          constructor
          · right
            simp [applyGo, hfs, hdr, hb]
          · constructor
            · intro habs
              have : ((⟨fs, [], []⟩ : ApplyState).failed_edits :
                  List (String × String × String)) = [] := rfl
              simp [applyGo, hfs, hdr, hb] at habs
            · rintro (h1 | ⟨c', hc', h2 | h2⟩)
              · simp at h1
              · injection hc' with hcc
                subst hcc
                rw [hdr] at h2
                simp at h2
              · injection hc' with hcc
                subst hcc
                rw [hdr] at h2
                injection h2 with hnc2
                exact absurd hnc2 hnc
  · intro edits dry_run
    exact ⟨apply_edits_raised_isSome a dr fence fs edits dry_run,
      fun m hm => apply_edits_raised_msg a dr fence fs edits dry_run m hm⟩
  · intro fe
    exact formatFailMsg_shape fe
  · intro p1 p2 o1 u1 o2 u2 c1 nc1 hfs2 hfs1 hdr1 hnc1 hne
    have hb : (!(nc1 == "")) = true := by simp [hnc1]
    have hgo : applyGo a dr fence false ⟨fs, [], []⟩
        [Edit.sr p2 o2 u2, Edit.sr p1 o1 u1] =
        ⟨fsWrite fs (a p1) nc1, [p1], [(p2, o2, u2)]⟩ := by
      simp [applyGo, hfs2, hfs1, hdr1, hb]
    have happly : apply_edits a dr fence fs
        [Edit.sr p2 o2 u2, Edit.sr p1 o1 u1] false =
        ⟨fsWrite fs (a p1) nc1, [p1], [(p2, o2, u2)],
          some (formatFailMsg [(p2, o2, u2)])⟩ := by
      simp [apply_edits, hgo]
    rw [happly]
    have hmsg : formatFailMsg [(p2, o2, u2)] =
        "# 1 SEARCH/REPLACE block failed to match!\n"
          ++ failBlockSection (p2, o2, u2) ++ failTrailer := by
      rw [formatFailMsg_shape]
      have hl : [(p2, o2, u2)].length = 1 := rfl
      rw [hl]
      have h1 : ("# " ++ toString 1 ++ " SEARCH/REPLACE "
          ++ (if 1 == 1 then "block" else "blocks")
          ++ " failed to match!\n") = "# 1 SEARCH/REPLACE block failed to match!\n" := by
        decide
      have h2 : joinStr ([(p2, o2, u2)].map failBlockSection) =
          failBlockSection (p2, o2, u2) := by
        rw [List.map_singleton, joinStr_cons,
          show joinStr [] = "" from rfl, String.append_empty]
      rw [h1, h2]
    have hp2 : (a p2 == a p1) = false := beq_eq_false_iff_ne.mpr (Ne.symm hne)
    exact ⟨rfl, rfl, congrArg some hmsg, by simp [fsWrite], by simp [fsWrite, hp2]⟩

/-- Witness for C2: a concrete batch with the failing edit first and the
succeeding edit second writes the first file, leaves the missing one absent,
and raises the one-section aggregate message. -/
theorem C2_apply_edits_failure_semantics_witness :
    (apply_edits (fun s => s)
        (fun full _ _ _ _ => if full = "a.md" then some "new" else none)
        ("```", "```")
        (fun q => if q = "a.md" then some "hello" else none)
        [Edit.sr "b.md" "o2" "u2", Edit.sr "a.md" "o1" "u1"]
        false).applied_files = ["a.md"] ∧
    (apply_edits (fun s => s)
        (fun full _ _ _ _ => if full = "a.md" then some "new" else none)
        ("```", "```")
        (fun q => if q = "a.md" then some "hello" else none)
        [Edit.sr "b.md" "o2" "u2", Edit.sr "a.md" "o1" "u1"]
        false).failed_edits = [("b.md", "o2", "u2")] ∧
    (apply_edits (fun s => s)
        (fun full _ _ _ _ => if full = "a.md" then some "new" else none)
        ("```", "```")
        (fun q => if q = "a.md" then some "hello" else none)
        [Edit.sr "b.md" "o2" "u2", Edit.sr "a.md" "o1" "u1"]
        false).raised =
      some ("# 1 SEARCH/REPLACE block failed to match!\n"
        ++ failBlockSection ("b.md", "o2", "u2") ++ failTrailer) ∧
    (apply_edits (fun s => s)
        (fun full _ _ _ _ => if full = "a.md" then some "new" else none)
        ("```", "```")
        (fun q => if q = "a.md" then some "hello" else none)
        [Edit.sr "b.md" "o2" "u2", Edit.sr "a.md" "o1" "u1"]
        false).fs "a.md" = some "new" ∧
    (apply_edits (fun s => s)
        (fun full _ _ _ _ => if full = "a.md" then some "new" else none)
        ("```", "```")
        (fun q => if q = "a.md" then some "hello" else none)
        [Edit.sr "b.md" "o2" "u2", Edit.sr "a.md" "o1" "u1"]
        false).fs "b.md" = none :=
  (C2_apply_edits_failure_semantics (fun s => s)
      (fun full _ _ _ _ => if full = "a.md" then some "new" else none)
      ("```", "```")
      (fun q => if q = "a.md" then some "hello" else none)).2.2.2
    "a.md" "b.md" "o1" "u1" "o2" "u2" "hello" "new"
    (by decide) (by decide) (by decide) (by decide) (by decide)

/-! ### Claim C3 -/

/-- C3: when the response contains both the `<<<<<<< SEARCH` and
`>>>>>>> REPLACE` markers, extraction depends only on the block decoder — the
fence scanner is never invoked (the result is the same for every scanner, even
an erroring one), path-less pseudo-edits go to the shell-command list and the
remaining blocks become 3-tuple search/replace edits; otherwise extraction
depends only on the fence scanner — the block decoder is never invoked — and
every scanned pair becomes a 2-tuple whole-file edit with the shell list
untouched.  The sniff `hasSRMarkers` looks at the whole text, never per-block. -/
theorem C3_binary_dispatch
    (find_original_update_blocks : String → String × String → List String → List RawBlock)
    (scanner : String → Except String (List (String × String)))
    (content : String) (fence : String × String) (chat_files : List String)
    (shell_commands : List String) :
    (hasSRMarkers content = true →
      (∀ scanner2 : String → Except String (List (String × String)),
        extract_edits find_original_update_blocks scanner content fence chat_files
            shell_commands =
          extract_edits find_original_update_blocks scanner2 content fence chat_files
            shell_commands) ∧
      extract_edits find_original_update_blocks scanner content fence chat_files
          shell_commands =
        .ok ((find_original_update_blocks content fence chat_files).filterMap
              (fun b => match b with
                | .shellCmd _ => none
                | .editBlock p o u => some (Edit.sr p o u)),
             shell_commands ++
               (find_original_update_blocks content fence chat_files).filterMap
                 (fun b => match b with
                   | .shellCmd cmd => some cmd
                   | .editBlock _ _ _ => none))) ∧
    (hasSRMarkers content = false →
      (∀ find2 : String → String × String → List String → List RawBlock,
        extract_edits find2 scanner content fence chat_files shell_commands =
          extract_edits find_original_update_blocks scanner content fence chat_files
            shell_commands) ∧
      (∀ pairs, scanner content = .ok pairs →
        extract_edits find_original_update_blocks scanner content fence chat_files
            shell_commands =
          .ok (pairs.map (fun pc => Edit.whole pc.1 pc.2), shell_commands))) := by
  constructor
  · intro h
    constructor
    · intro scanner2
      simp only [extract_edits, h, if_true]
    · simp only [extract_edits, h, if_true]
  · intro h
    constructor
    · intro find2
      simp only [extract_edits, h, Bool.false_eq_true, if_false]
    · intro pairs hp
      simp only [extract_edits, h, Bool.false_eq_true, if_false, hp]

/-- Witness for C3: with markers present the result ignores the scanner (even
an erroring one); without markers the scanner's pairs become whole-file edits. -/
theorem C3_binary_dispatch_witness :
    (extract_edits (fun _ _ _ => [RawBlock.shellCmd "ls", RawBlock.editBlock "a.md" "o" "u"])
        (fun _ => .ok [("a.md", "x")])
        "<<<<<<< SEARCH\n>>>>>>> REPLACE" ("```", "```") [] [] =
      extract_edits (fun _ _ _ => [RawBlock.shellCmd "ls", RawBlock.editBlock "a.md" "o" "u"])
        (fun _ => .error "boom")
        "<<<<<<< SEARCH\n>>>>>>> REPLACE" ("```", "```") [] []) ∧
    (extract_edits (fun _ _ _ => [RawBlock.shellCmd "ls", RawBlock.editBlock "a.md" "o" "u"])
        (fun _ => .ok [("a.md", "x")]) "plain text" ("```", "```") [] [] =
      .ok ([Edit.whole "a.md" "x"], [])) :=
  ⟨((C3_binary_dispatch
        (fun _ _ _ => [RawBlock.shellCmd "ls", RawBlock.editBlock "a.md" "o" "u"])
        (fun _ => .ok [("a.md", "x")])
        "<<<<<<< SEARCH\n>>>>>>> REPLACE" ("```", "```") [] []).1
      (by decide)).1 (fun _ => .error "boom"),
   ((C3_binary_dispatch
        (fun _ _ _ => [RawBlock.shellCmd "ls", RawBlock.editBlock "a.md" "o" "u"])
        (fun _ => .ok [("a.md", "x")])
        "plain text" ("```", "```") [] []).2
      (by decide)).2 [("a.md", "x")] rfl⟩

/-! ### Claims C4 and C8 -/

/-- C4 evidence: the three precedence sources behave as claimed (a bold heading
matching an in-chat path wins; with no heading and one in-chat file that file
is used; an earlier backtick mention is used before the single-file fallback),
but the final "skip the block" step is broken: with no usable heading, no
mention, and two in-chat files, the code emits a `("", content)` pair instead
of dropping the block, because the `continue` at source line 172 leaves
`fname = ""` (not `None`) whenever the opening fence is not the first line,
contradicting the comment "Skip this block if we can't determine filename". -/
theorem C4_fname_inference_eval :
    parse_whole_file_format ("```", "```") ["a.md", "b.md"]
        "**a.md**\n```\nbody\n```\n" "update" = .ok [("a.md", "body\n")] ∧
    parse_whole_file_format ("```", "```") ["a.md"]
        "```\nbody\n```\n" "update" = .ok [("a.md", "body\n")] ∧
    parse_whole_file_format ("```", "```") ["a.md", "b.md"]
        "see `b.md` here\n\n```\nbody\n```\n" "update" = .ok [("b.md", "body\n")] ∧
    parse_whole_file_format ("```", "```") ["a.md", "b.md"]
        "\n```\nbody\n```\n" "update" = .ok [("", "body\n")] := by
  refine ⟨?_, ?_, ?_, ?_⟩ <;> rfl

theorem wfLoop_no_error (fence : String × String) (chat_files : List String)
    (lines : List String) :
    ∀ (prev saw_fname fname : Option String) (new_lines : List String)
      (edits : List (String × String)),
      ∃ es, wfLoop fence chat_files lines prev saw_fname fname new_lines edits =
        .ok es := by
  induction lines with
  | nil =>
    intro prev saw fname buf acc
    cases fname with
    | some f =>
      by_cases h : (!buf.isEmpty) = true
      · exact ⟨acc ++ [(f, joinStr buf)], by simp only [wfLoop, h, if_true]⟩
      · exact ⟨acc, by simp only [wfLoop]; rw [if_neg h]⟩
    | none => exact ⟨acc, rfl⟩
  | cons line rest ih =>
    intro prev saw fname buf acc
    by_cases hf : isFenceLine fence line = true
    · cases fname with
      | some f =>
        simp only [wfLoop, hf, if_true]
        exact ih _ _ _ _ _
      | none =>
        have hget : (chat_files.length == 1) = true →
            ∃ c, chat_files.get? 0 = some c := by
          intro hl
          rcases chat_files with _ | ⟨c, cs⟩
          · simp at hl
          · exact ⟨c, rfl⟩
        cases prev with
        | some p =>
          by_cases hc : (!(cleanFname p chat_files == "")) = true
          · simp only [wfLoop, hf, if_true, hc]
            exact ih _ _ _ _ _
          · cases saw with
            | some sf =>
              simp only [wfLoop, hf, if_true]
              rw [if_neg hc]
              exact ih _ _ _ _ _
            | none =>
              simp only [wfLoop, hf, if_true]
              rw [if_neg hc]
              by_cases hl : (chat_files.length == 1) = true
              · rcases hget hl with ⟨c, hc0⟩
                rw [if_pos hl, hc0]
                exact ih _ _ _ _ _
              · rw [if_neg hl]
                exact ih _ _ _ _ _
        | none =>
          cases saw with
          | some sf =>
            simp only [wfLoop, hf, if_true]
            exact ih _ _ _ _ _
          | none =>
            simp only [wfLoop, hf, if_true]
            by_cases hl : (chat_files.length == 1) = true
            · rcases hget hl with ⟨c, hc0⟩
              rw [if_pos hl, hc0]
              exact ih _ _ _ _ _
            · rw [if_neg hl]
              exact ih _ _ _ _ _
    · cases fname with
      | some f =>
        simp only [wfLoop]
        rw [if_neg hf]
        exact ih _ _ _ _ _
      | none =>
        simp only [wfLoop]
        rw [if_neg hf]
        exact ih _ _ _ _ _

/-- C8 evidence: the scanner is total — for every input text, fence pair and
in-chat list it returns a list of pairs without raising (the lone partial
operation, the `chat_files[0]` subscript, is guarded by the length test) — but
unresolvable blocks are not silently dropped: on a block whose heading cleans
to empty, with an empty in-chat list, the code emits a `("", content)` pair
(the `continue` at source line 172 leaves `fname = ""`, which is not `None`). -/
theorem C8_scanner_totality_eval :
    (∀ (fence : String × String) (chat_files : List String) (content mode : String),
        ∃ es, parse_whole_file_format fence chat_files content mode = .ok es) ∧
    parse_whole_file_format ("```", "```") [] "***\n```\nhello\n```\n" "update" =
      .ok [("", "hello\n")] := by
  constructor
  · intro fence chat_files content mode
    exact wfLoop_no_error fence chat_files (splitLinesKeep content) none none none [] []
  · rfl

/-! ### Line-splitting lemmas for claims C9 and C10 -/

theorem splitLinesAux_chunk (u : List Char) :
    ∀ (acc rest : List Char), (∀ c ∈ u, c ≠ '\n') →
      splitLinesAux acc (u ++ '\n' :: rest) =
        String.mk (acc.reverse ++ u ++ ['\n']) :: splitLinesAux [] rest := by
  induction u with
  | nil =>
    intro acc rest _
    simp [splitLinesAux]
  | cons c u' ih =>
    intro acc rest h
    have hc : c ≠ '\n' := h c (List.mem_cons_self _ _)
    have hcb : (c == '\n') = false := beq_eq_false_iff_ne.mpr hc
    conv_lhs => rw [List.cons_append, splitLinesAux]
    rw [hcb]
    simp only [Bool.false_eq_true, if_false]
    rw [ih (c :: acc) rest (fun d hd => h d (List.mem_cons_of_mem _ hd))]
    simp [List.append_assoc]

theorem joinChars_splitLinesAux (l : List Char) :
    ∀ acc, joinChars (splitLinesAux acc l) = acc.reverse ++ l := by
  induction l with
  | nil =>
    intro acc
    by_cases h : acc.isEmpty = true
    · rw [List.isEmpty_iff] at h
      subst h
      simp [splitLinesAux, joinChars]
    · simp only [splitLinesAux, h, Bool.false_eq_true, if_false]
      simp [joinChars]
  | cons c l' ih =>
    intro acc
    by_cases hc : (c == '\n') = true
    · have : c = '\n' := by simpa using hc
      subst this
      simp only [splitLinesAux, hc, if_true, joinChars]
      rw [ih []]
      simp
    · simp only [splitLinesAux, hc, Bool.false_eq_true, if_false]
      rw [ih (c :: acc)]
      simp

/-- Python invariant: `"".join(s.splitlines(keepends=True)) == s`. -/
theorem joinStr_splitLinesKeep (s : String) : joinStr (splitLinesKeep s) = s := by
  apply stringExt
  show joinChars (splitLinesAux [] s.data) = s.data
  rw [joinChars_splitLinesAux]
  simp

theorem splitLinesAux_append_terminated (a : List Char) :
    ∀ (acc b : List Char), a.getLast? = some '\n' →
      splitLinesAux acc (a ++ b) = splitLinesAux acc a ++ splitLinesAux [] b := by
  induction a with
  | nil =>
    intro acc b h
    simp at h
  | cons c a' ih =>
    intro acc b h
    cases a' with
    | nil =>
      have : c = '\n' := by simpa using h
      subst this
      simp [splitLinesAux]
    | cons c' a'' =>
      have h' : (c' :: a'').getLast? = some '\n' := by
        rwa [List.getLast?_cons_cons] at h
      by_cases hc : (c == '\n') = true
      · conv_lhs => rw [List.cons_append, splitLinesAux]
        conv_rhs => rw [splitLinesAux]
        rw [hc]
        simp only [if_true]
        conv_rhs => rw [List.cons_append]
        rw [ih [] b h']
      · rw [Bool.not_eq_true] at hc
        conv_lhs => rw [List.cons_append, splitLinesAux]
        conv_rhs => rw [splitLinesAux]
        rw [hc]
        simp only [Bool.false_eq_true, if_false]
        exact ih (c :: acc) b h'

theorem mkLine_eq (s : String) : String.mk (s.data ++ ['\n']) = s ++ "\n" := by
  apply stringExt
  simp [String.data_append]

theorem isPre_self_append (p : List Char) :
    ∀ s : List Char, isPre p (p ++ s) = true := by
  induction p with
  | nil => intro s; rfl
  | cons c p' ih =>
    intro s
    simp only [List.cons_append, isPre, beq_self_eq_true, Bool.true_and]
    exact ih s

theorem isFenceLine_fence1 (fence : String × String) (x : String) :
    isFenceLine fence (fence.1 ++ x) = true := by
  unfold isFenceLine startsWithStr
  rw [String.data_append, isPre_self_append]
  rfl

theorem isFenceLine_fence2 (fence : String × String) (x : String) :
    isFenceLine fence (fence.2 ++ x) = true := by
  unfold isFenceLine startsWithStr
  rw [String.data_append, isPre_self_append]
  simp

theorem splitLinesKeep_line_append (s : String) (t : String)
    (hnl : ∀ c ∈ s.data, c ≠ '\n') :
    splitLinesKeep (s ++ "\n" ++ t) = (s ++ "\n") :: splitLinesKeep t := by
  unfold splitLinesKeep
  have hd : (s ++ "\n" ++ t).data = s.data ++ '\n' :: t.data := by
    simp [String.data_append]
  rw [hd, splitLinesAux_chunk s.data [] t.data hnl]
  rw [show ([] : List Char).reverse ++ s.data ++ ['\n'] = s.data ++ ['\n'] by simp,
    mkLine_eq]

theorem splitLinesKeep_line (s : String) (hnl : ∀ c ∈ s.data, c ≠ '\n') :
    splitLinesKeep (s ++ "\n") = [s ++ "\n"] := by
  unfold splitLinesKeep
  have hd : (s ++ "\n").data = s.data ++ '\n' :: [] := by
    simp [String.data_append]
  rw [hd, splitLinesAux_chunk s.data [] [] hnl]
  rw [show ([] : List Char).reverse ++ s.data ++ ['\n'] = s.data ++ ['\n'] by simp,
    mkLine_eq]
  rfl

theorem empty_append_str (t : String) : "" ++ t = t := by
  apply stringExt
  simp [String.data_append]

theorem splitLinesKeep_append_terminated (s t : String)
    (h : s = "" ∨ s.data.getLast? = some '\n') :
    splitLinesKeep (s ++ t) = splitLinesKeep s ++ splitLinesKeep t := by
  rcases h with rfl | h
  · rw [empty_append_str]
    rfl
  · unfold splitLinesKeep
    rw [String.data_append]
    exact splitLinesAux_append_terminated s.data [] t.data h

/-- While a block is open with a resolved filename, non-fence lines are
absorbed verbatim into `new_lines`. -/
theorem wfLoop_absorb (fence : String × String) (chat_files : List String)
    (ls : List String) :
    ∀ (rest : List String) (prev saw : Option String) (f : String)
      (buf : List String) (acc : List (String × String)),
      (∀ l ∈ ls, isFenceLine fence l = false) →
      ∃ prev', wfLoop fence chat_files (ls ++ rest) prev saw (some f) buf acc =
        wfLoop fence chat_files rest prev' saw (some f) (buf ++ ls) acc := by
  induction ls with
  | nil =>
    intro rest prev saw f buf acc _
    exact ⟨prev, by rw [List.nil_append, List.append_nil]⟩
  | cons l ls' ih =>
    intro rest prev saw f buf acc hls
    have hl : isFenceLine fence l = false := hls l (List.mem_cons_self _ _)
    rcases ih rest (some l) saw f (buf ++ [l]) acc
        (fun l' h' => hls l' (List.mem_cons_of_mem _ h')) with ⟨prev', hp⟩
    refine ⟨prev', ?_⟩
    conv_lhs => rw [List.cons_append, wfLoop]
    rw [hl]
    simp only [Bool.false_eq_true, if_false]
    rw [hp]
    have hb : buf ++ [l] ++ ls' = buf ++ l :: ls' := by simp
    rw [hb]

theorem joinStr_nil : joinStr [] = "" := rfl

theorem wfLoop_step_nonfence_none (fence : String × String)
    (chat_files : List String) (line : String) (rest : List String)
    (prev saw : Option String) (buf : List String) (acc : List (String × String))
    (hl : isFenceLine fence line = false) :
    wfLoop fence chat_files (line :: rest) prev saw none buf acc =
      wfLoop fence chat_files rest (some line) (updateSaw chat_files saw line)
        none buf acc := by
  simp only [wfLoop, hl, Bool.false_eq_true, if_false]

theorem wfLoop_step_open (fence : String × String) (chat_files : List String)
    (line : String) (rest : List String) (p : String) (saw : Option String)
    (buf : List String) (acc : List (String × String)) (path : String)
    (hl : isFenceLine fence line = true)
    (hclean : cleanFname p chat_files = path) (hpne : path ≠ "") :
    wfLoop fence chat_files (line :: rest) (some p) saw none buf acc =
      wfLoop fence chat_files rest (some line) saw (some path) buf acc := by
  have hb : (!(path == "")) = true := by simp [hpne]
  simp only [wfLoop, hl, if_true, hclean, hb]

theorem wfLoop_step_close (fence : String × String) (chat_files : List String)
    (line : String) (rest : List String) (prev saw : Option String) (f : String)
    (buf : List String) (acc : List (String × String))
    (hl : isFenceLine fence line = true) :
    wfLoop fence chat_files (line :: rest) prev saw (some f) buf acc =
      wfLoop fence chat_files rest (some line) saw none []
        (acc ++ [(f, joinStr buf)]) := by
  simp only [wfLoop, hl, if_true]

/-! ### Claim C10 -/

/-- C10: a closing fence that ends a block whose filename resolved emits a
`(path, "")` pair even when zero content lines accumulated, whereas a block
still open at end of input with zero accumulated lines emits nothing. -/
theorem C10_empty_block_asymmetry (fence : String × String)
    (chat_files : List String) (path mode : String)
    (hnlp : ∀ c ∈ path.data, c ≠ '\n')
    (hnlf1 : ∀ c ∈ fence.1.data, c ≠ '\n')
    (hnlf2 : ∀ c ∈ fence.2.data, c ≠ '\n')
    (hpf : isFenceLine fence (path ++ "\n") = false)
    (hclean : cleanFname (path ++ "\n") chat_files = path)
    (hpne : path ≠ "") :
    parse_whole_file_format fence chat_files
        (path ++ "\n" ++ (fence.1 ++ "\n" ++ (fence.2 ++ "\n"))) mode =
      .ok [(path, "")] ∧
    parse_whole_file_format fence chat_files (path ++ "\n" ++ (fence.1 ++ "\n"))
        mode = .ok [] := by
  constructor
  · have hlines : splitLinesKeep (path ++ "\n" ++ (fence.1 ++ "\n" ++ (fence.2 ++ "\n"))) =
        (path ++ "\n") :: (fence.1 ++ "\n") :: [fence.2 ++ "\n"] := by
      rw [splitLinesKeep_line_append path _ hnlp,
        splitLinesKeep_line_append fence.1 _ hnlf1,
        splitLinesKeep_line fence.2 hnlf2]
    unfold parse_whole_file_format
    rw [hlines]
    rw [wfLoop_step_nonfence_none fence chat_files _ _ _ _ _ _ hpf]
    rw [wfLoop_step_open fence chat_files _ _ _ _ _ _ path
      (isFenceLine_fence1 fence "\n") hclean hpne]
    rw [wfLoop_step_close fence chat_files _ _ _ _ _ _ _
      (isFenceLine_fence2 fence "\n")]
    simp [wfLoop, joinStr_nil]
  · have hlines : splitLinesKeep (path ++ "\n" ++ (fence.1 ++ "\n")) =
        (path ++ "\n") :: [fence.1 ++ "\n"] := by
      rw [splitLinesKeep_line_append path _ hnlp,
        splitLinesKeep_line fence.1 hnlf1]
    unfold parse_whole_file_format
    rw [hlines]
    rw [wfLoop_step_nonfence_none fence chat_files _ _ _ _ _ _ hpf]
    rw [wfLoop_step_open fence chat_files _ _ _ _ _ _ path
      (isFenceLine_fence1 fence "\n") hclean hpne]
    simp [wfLoop]

/-- Witness for C10: concrete instances of both halves with the default fence. -/
theorem C10_empty_block_asymmetry_witness :
    parse_whole_file_format ("```", "```") ["a.md"] "a.md\n```\n```\n" "update" =
      .ok [("a.md", "")] ∧
    parse_whole_file_format ("```", "```") ["a.md"] "a.md\n```\n" "update" =
      .ok [] := by
  have h := C10_empty_block_asymmetry ("```", "```") ["a.md"] "a.md" "update"
    (by decide) (by decide) (by decide) (by decide) (by decide) (by decide)
  rcases h with ⟨h1, h2⟩
  constructor
  · rw [show ("a.md\n```\n```\n" : String) =
      "a.md" ++ "\n" ++ ("```" ++ "\n" ++ ("```" ++ "\n")) by rfl]
    exact h1
  · rw [show ("a.md\n```\n" : String) = "a.md" ++ "\n" ++ ("```" ++ "\n") by rfl]
    exact h2

/-! ### Claim C9 -/

/-- C9 counterexample: the round-trip fails for a content string that itself
contains a fence line — encoding `("a.md", "```\n")` and decoding yields the
pair `("a.md", "")`, because the embedded fence line closes the block early. -/
theorem C9_counterexample :
    parse_whole_file_format ("```", "```") ["a.md"]
        (encodeWholeSpec ("```", "```") "a.md" "```\n") "update" =
      .ok [("a.md", "")] ∧ ("" : String) ≠ "```\n" :=
  ⟨rfl, by decide⟩

/-- C9 (amended): the round-trip holds for every in-chat path that is a single
newline-free line left unchanged by the heading-cleanup chain, and every
content string that is newline-terminated (or empty) and none of whose lines
starts with either fence delimiter: encoding with the whole-file fenced form
and decoding yields exactly one pair whose content is byte-for-byte identical,
because lines inside the open block are appended verbatim with their
terminators. -/
theorem C9_round_trip (fence : String × String) (chat_files : List String)
    (path content mode : String)
    (hnlp : ∀ c ∈ path.data, c ≠ '\n')
    (hnlf1 : ∀ c ∈ fence.1.data, c ≠ '\n')
    (hnlf2 : ∀ c ∈ fence.2.data, c ≠ '\n')
    (hpf : isFenceLine fence (path ++ "\n") = false)
    (hclean : cleanFname (path ++ "\n") chat_files = path)
    (hpne : path ≠ "")
    (hcend : content = "" ∨ content.data.getLast? = some '\n')
    (hcl : ∀ l ∈ splitLinesKeep content, isFenceLine fence l = false) :
    parse_whole_file_format fence chat_files
        (encodeWholeSpec fence path content) mode = .ok [(path, content)] := by
  have hassoc : encodeWholeSpec fence path content =
      path ++ "\n" ++ (fence.1 ++ "\n" ++ (content ++ (fence.2 ++ "\n"))) := by
    simp [encodeWholeSpec, String.append_assoc]
  have hlines : splitLinesKeep (encodeWholeSpec fence path content) =
      (path ++ "\n") :: (fence.1 ++ "\n") ::
        (splitLinesKeep content ++ [fence.2 ++ "\n"]) := by
    rw [hassoc, splitLinesKeep_line_append path _ hnlp,
      splitLinesKeep_line_append fence.1 _ hnlf1,
      splitLinesKeep_append_terminated content _ hcend,
      splitLinesKeep_line fence.2 hnlf2]
  unfold parse_whole_file_format
  rw [hlines]
  rw [wfLoop_step_nonfence_none fence chat_files _ _ _ _ _ _ hpf]
  rw [wfLoop_step_open fence chat_files _ _ _ _ _ _ path
    (isFenceLine_fence1 fence "\n") hclean hpne]
  rcases wfLoop_absorb fence chat_files (splitLinesKeep content) [fence.2 ++ "\n"]
      (some (fence.1 ++ "\n")) (updateSaw chat_files none (path ++ "\n")) path [] []
      hcl with ⟨prev', habs⟩
  rw [habs]
  rw [wfLoop_step_close fence chat_files _ _ _ _ _ _ _
    (isFenceLine_fence2 fence "\n")]
  simp [wfLoop, joinStr_splitLinesKeep]

/-- Witness for C9 (amended): a concrete round-trip through the encoder with
the default fence recovers the exact content. -/
theorem C9_round_trip_witness :
    parse_whole_file_format ("```", "```") ["a.md"]
        (encodeWholeSpec ("```", "```") "a.md" "hello\nworld\n") "update" =
      .ok [("a.md", "hello\nworld\n")] :=
  C9_round_trip ("```", "```") ["a.md"] "a.md" "hello\nworld\n" "update"
    (by decide) (by decide) (by decide) (by decide) (by decide) (by decide)
    (Or.inr (by decide)) (by decide)

end MarkdownEditor
